import Mathlib

/-!
Shallow embedding of `src/data-oriented-slim-deque.ts` (package
`data-oriented-slim-deque`): the `SlimDeque` class, a deque backed by a
cyclic buffer.

Modelling conventions:
* The JavaScript array `_cyclicBuffer : Array<T | undefined>` is a
  `List (Option α)`; an `undefined` slot is `none`.
* JavaScript `number` index arithmetic is exact, so candidate indices are
  `ℤ` (they can be `-1` before wrapping) while the stored `frontIndex` and
  `size` are `ℕ` (the source keeps them in `[0, capacity)` resp. `≥ 0`).
* `capacityIncrementFactor` is a `ℚ` (ideal real arithmetic); the separate
  `JSNum` type below additionally models the non-finite IEEE values
  (`NaN`, `±Infinity`) with JavaScript comparison semantics, used only for
  the constructor-validation claims where the spec quantifies over them.
* Methods that `throw` return `Option` results: `none` models the throw
  (the deque object itself is left untouched by a throwing call).
-/

namespace SlimDequeModel

/-- JavaScript number with its non-finite values.  Finite values are exact
rationals. -/
inductive JSNum where
  | nan : JSNum
  | posInf : JSNum
  | negInf : JSNum
  | fin (val : ℚ) : JSNum
deriving DecidableEq

/-- JavaScript `<` on numbers: any comparison involving `NaN` is `false`. -/
def JSNum.jsLt : JSNum → JSNum → Bool
  | .nan, _ => false
  | _, .nan => false
  | .posInf, _ => false
  | .negInf, .negInf => false
  | .negInf, _ => true
  | .fin _, .posInf => true
  | .fin _, .negInf => false
  | .fin a, .fin b => decide (a < b)

/-- JavaScript `>=` on numbers: any comparison involving `NaN` is `false`. -/
def JSNum.jsGe : JSNum → JSNum → Bool
  | .nan, _ => false
  | _, .nan => false
  | .posInf, _ => true
  | .negInf, .negInf => true
  | .negInf, _ => false
  | .fin _, .posInf => false
  | .fin _, .negInf => true
  | .fin a, .fin b => decide (b ≤ a)

/-- JavaScript `Math.floor`: identity on `NaN` and the infinities. -/
def JSNum.jsFloor : JSNum → JSNum
  | .nan => .nan
  | .posInf => .posInf
  | .negInf => .negInf
  | .fin q => .fin (Int.floor q : ℤ)

/-- JavaScript `===` on numbers: `NaN === NaN` is `false`. -/
def JSNum.strictEq : JSNum → JSNum → Bool
  | .nan, _ => false
  | _, .nan => false
  | a, b => decide (a = b)

/-- Source constant `MIN_ALLOWED_CAPACITY_INCREMENT_FACTOR = 1.1`. -/
def MIN_ALLOWED_CAPACITY_INCREMENT_FACTOR : ℚ := 11 / 10

/-- Source constant `MAX_ALLOWED_CAPACITY_INCREMENT_FACTOR = 2`. -/
def MAX_ALLOWED_CAPACITY_INCREMENT_FACTOR : ℚ := 2

/-- Source helper `isNaturalNumber(num)`:
`const floored = Math.floor(num); return floored >= 1 && floored === num;`. -/
def isNaturalNumber (num : JSNum) : Bool :=
  let floored := num.jsFloor
  floored.jsGe (.fin 1) && floored.strictEq num

/-- True when `_validateCapacityIncrementFactor(factor)` throws:
`factor < MIN_ALLOWED` or `factor > MAX_ALLOWED` (JS comparisons). -/
def validateCapacityIncrementFactorThrows (factor : JSNum) : Bool :=
  factor.jsLt (.fin MIN_ALLOWED_CAPACITY_INCREMENT_FACTOR) ||
    (JSNum.fin MAX_ALLOWED_CAPACITY_INCREMENT_FACTOR).jsLt factor

/-- True when the `SlimDeque` constructor throws for the given arguments:
it throws when `!isNaturalNumber(initialCapacity)` and otherwise when the
factor validation throws. -/
def constructorThrows (initialCapacity factor : JSNum) : Bool :=
  !(isNaturalNumber initialCapacity) || validateCapacityIncrementFactorThrows factor

/-- Spec-side predicate: the number is a positive integer (a non-finite
value is not). -/
def isPositiveIntegerSpec : JSNum → Prop
  | .fin q => 1 ≤ q ∧ (Int.floor q : ℚ) = q
  | _ => False

/-- Spec-side predicate: the factor lies in the closed interval
`[1.1, 2.0]` (a non-finite value does not). -/
def factorInRangeSpec : JSNum → Prop
  | .fin q => 11 / 10 ≤ q ∧ q ≤ 2
  | _ => False

instance : DecidablePred isPositiveIntegerSpec := by
  intro n; cases n <;> simp [isPositiveIntegerSpec] <;> infer_instance

instance : DecidablePred factorInRangeSpec := by
  intro n; cases n <;> simp [factorInRangeSpec] <;> infer_instance

/-- State of a `SlimDeque<T>` object: its four mutable private fields and
the immutable `_capacityIncrementFactor`. -/
structure SlimDeque (α : Type) where
  cyclicBuffer : List (Option α)
  frontIndex : ℕ
  size : ℕ
  numberOfCapacityIncrements : ℕ
  capacityIncrementFactor : ℚ
deriving DecidableEq

/-- State produced by a successful constructor call:
`new Array(initialCapacity).fill(undefined)`, all counters zero. -/
def mkSlimDeque (α : Type) (initialCapacity : ℕ) (capacityIncrementFactor : ℚ) :
    SlimDeque α :=
  { cyclicBuffer := List.replicate initialCapacity none
    frontIndex := 0
    size := 0
    numberOfCapacityIncrements := 0
    capacityIncrementFactor := capacityIncrementFactor }

variable {α : Type}

/-- Getter `capacity`: the length of the internal buffer. -/
def SlimDeque.capacity (d : SlimDeque α) : ℕ := d.cyclicBuffer.length

/-- Getter `isEmpty`: `this._size === 0`. -/
def SlimDeque.isEmpty (d : SlimDeque α) : Bool := d.size == 0

/-- Read `buffer[i]` with JavaScript semantics: out-of-range (including
negative) indices read `undefined`. -/
def bufGet (buf : List (Option α)) (i : ℤ) : Option α :=
  if 0 ≤ i then buf.getD i.toNat none else none

/-- Write `buffer[i] = v` for an index that the source guarantees to be in
range; out-of-range writes leave the buffer unchanged. -/
def bufSet (buf : List (Option α)) (i : ℤ) (v : Option α) : List (Option α) :=
  if 0 ≤ i then buf.set i.toNat v else buf

/-- Method `_fixIndexIfNecessary(candidateIndex)`: wrap a candidate that is
at most one buffer-width out of range back into `[0, capacity)`. -/
def SlimDeque.fixIndexIfNecessary (d : SlimDeque α) (candidateIndex : ℤ) : ℤ :=
  if (d.cyclicBuffer.length : ℤ) ≤ candidateIndex then
    candidateIndex - d.cyclicBuffer.length
  else if candidateIndex < 0 then
    candidateIndex + d.cyclicBuffer.length
  else
    candidateIndex

/-- Method `_calculateNewBackIndex()`: `fix(frontIndex + size)`. -/
def SlimDeque.calculateNewBackIndex (d : SlimDeque α) : ℤ :=
  d.fixIndexIfNecessary ((d.frontIndex : ℤ) + d.size)

/-- Method `_calculateCurrentBackIndex()`: `fix(frontIndex + size - 1)`. -/
def SlimDeque.calculateCurrentBackIndex (d : SlimDeque α) : ℤ :=
  d.fixIndexIfNecessary ((d.frontIndex : ℤ) + d.size - 1)

/-- Method `_calculateNewFrontIndex()`: `fix(frontIndex - 1)`. -/
def SlimDeque.calculateNewFrontIndex (d : SlimDeque α) : ℤ :=
  d.fixIndexIfNecessary ((d.frontIndex : ℤ) - 1)

/-- Getter `front`: throws (`none`) when empty, otherwise the slot at
`frontIndex`. -/
def SlimDeque.front (d : SlimDeque α) : Option (Option α) :=
  if d.size = 0 then none
  else some (bufGet d.cyclicBuffer (d.frontIndex : ℤ))

/-- Getter `back`: throws (`none`) when empty, otherwise the slot at the
current back index. -/
def SlimDeque.back (d : SlimDeque α) : Option (Option α) :=
  if d.size = 0 then none
  else some (bufGet d.cyclicBuffer d.calculateCurrentBackIndex)

/-- Loop body of `_traverseFromFrontToBack`: the list of buffer indices
visited, starting at `cur`, wrapping to `0` when the incremented index
reaches `len`, for `n` iterations. -/
def traverseAux (len : ℕ) : ℕ → ℕ → List ℕ
  | 0, _ => []
  | n + 1, cur => cur :: traverseAux len n (if cur + 1 = len then 0 else cur + 1)

/-- Method `_traverseFromFrontToBack(callback)`: the indices passed to the
callback, in order (`size` of them, starting at `frontIndex`). -/
def SlimDeque.traverseFromFrontToBack (d : SlimDeque α) : List ℕ :=
  traverseAux d.cyclicBuffer.length d.size d.frontIndex

/-- Method `getSnapshot()`: the items read at the traversed indices, in
front-to-back order. -/
def SlimDeque.getSnapshot (d : SlimDeque α) : List (Option α) :=
  d.traverseFromFrontToBack.map (fun i => d.cyclicBuffer.getD i none)

/-- The new capacity computed at growth:
`Math.ceil(currCapacity * capacityIncrementFactor)`. -/
def newCapacityOf (currCapacity : ℕ) (factor : ℚ) : ℕ :=
  (Int.ceil ((currCapacity : ℚ) * factor)).toNat

/-- Method `_increaseCapacityIfNecessary()`: returns the state unchanged
when `size < capacity`; otherwise allocates a buffer of
`newCapacity` `undefined` slots, copies the occupied items in
front-to-back order into its low indices (the source also clears the old
buffer's slots, but that buffer is then discarded), resets `frontIndex`
to 0 and increments the reallocation counter. -/
def SlimDeque.increaseCapacityIfNecessary (d : SlimDeque α) : SlimDeque α :=
  let currCapacity := d.cyclicBuffer.length
  if d.size < currCapacity then d
  else
    let newCapacity := newCapacityOf currCapacity d.capacityIncrementFactor
    let items := d.traverseFromFrontToBack.map (fun i => d.cyclicBuffer.getD i none)
    { d with
      cyclicBuffer := items ++ List.replicate (newCapacity - items.length) none
      frontIndex := 0
      numberOfCapacityIncrements := d.numberOfCapacityIncrements + 1 }

/-- Method `pushBack(item)`: grow if necessary, write at the new back
index, increment `size`. -/
def SlimDeque.pushBack (d : SlimDeque α) (item : α) : SlimDeque α :=
  let d := d.increaseCapacityIfNecessary
  let newBackIndex := d.calculateNewBackIndex
  { d with
    cyclicBuffer := bufSet d.cyclicBuffer newBackIndex (some item)
    size := d.size + 1 }

/-- Method `pushFront(item)`: grow if necessary, move `frontIndex` one step
back (wrapping), write there, increment `size`. -/
def SlimDeque.pushFront (d : SlimDeque α) (item : α) : SlimDeque α :=
  let d := d.increaseCapacityIfNecessary
  let newFrontIndex := d.calculateNewFrontIndex
  { d with
    frontIndex := newFrontIndex.toNat
    cyclicBuffer := bufSet d.cyclicBuffer newFrontIndex (some item)
    size := d.size + 1 }

/-- Method `popBack()`: throws (`none`) when empty; otherwise clears the
slot at the current back index, decrements `size`, and returns the old
back item together with the new state. -/
def SlimDeque.popBack (d : SlimDeque α) : Option (Option α × SlimDeque α) :=
  if d.size = 0 then none
  else
    let currentBackIndex := d.calculateCurrentBackIndex
    let oldBackItem := bufGet d.cyclicBuffer currentBackIndex
    some (oldBackItem,
      { d with
        cyclicBuffer := bufSet d.cyclicBuffer currentBackIndex none
        size := d.size - 1 })

/-- Method `popFront()`: throws (`none`) when empty; otherwise clears the
slot at `frontIndex`, advances `frontIndex` (wrapping to 0 at the buffer
length), decrements `size`, and returns the old front item with the new
state. -/
def SlimDeque.popFront (d : SlimDeque α) : Option (Option α × SlimDeque α) :=
  if d.size = 0 then none
  else
    let oldFrontItem := bufGet d.cyclicBuffer (d.frontIndex : ℤ)
    let buf := bufSet d.cyclicBuffer (d.frontIndex : ℤ) none
    let f := d.frontIndex + 1
    some (oldFrontItem,
      { d with
        cyclicBuffer := buf
        frontIndex := if f = d.cyclicBuffer.length then 0 else f
        size := d.size - 1 })

/-- The state change of a `popFront()` call: identity on an empty deque
(where the call throws). -/
def popFrontStep (d : SlimDeque α) : SlimDeque α :=
  match d.popFront with
  | none => d
  | some (_, d') => d'

theorem popFrontStep_size_lt (d : SlimDeque α) (h : d.size ≠ 0) :
    (popFrontStep d).size < d.size := by
  unfold popFrontStep SlimDeque.popFront
  rw [if_neg h]
  simp only
  omega

/-- Loop `while (!this.isEmpty) { this.popFront(); }` of `clear()`. -/
def clearLoop (d : SlimDeque α) : SlimDeque α :=
  if h : d.size = 0 then d
  else clearLoop (popFrontStep d)
termination_by d.size
decreasing_by exact popFrontStep_size_lt d h

/-- Method `clear()`: pop from the front until empty, then reset
`frontIndex` to 0. -/
def SlimDeque.clear (d : SlimDeque α) : SlimDeque α :=
  { clearLoop d with frontIndex := 0 }

/-- One public mutating deque operation (the four push/pop methods). -/
inductive DequeOp (α : Type) where
  | pushFront (a : α) : DequeOp α
  | pushBack (a : α) : DequeOp α
  | popFront : DequeOp α
  | popBack : DequeOp α
deriving DecidableEq

/-- Run one operation on the deque state; a throwing pop leaves the state
unchanged. -/
def runOp (d : SlimDeque α) : DequeOp α → SlimDeque α
  | .pushFront a => d.pushFront a
  | .pushBack a => d.pushBack a
  | .popFront => (d.popFront.map Prod.snd).getD d
  | .popBack => (d.popBack.map Prod.snd).getD d

/-- Run a sequence of operations on the deque state. -/
def runOps (d : SlimDeque α) (ops : List (DequeOp α)) : SlimDeque α :=
  ops.foldl runOp d

/-- Reference deque: the list of stored items in front-to-back order.
A pop on the empty list throws, so the list is unchanged. -/
def refOp (l : List α) : DequeOp α → List α
  | .pushFront a => a :: l
  | .pushBack a => l ++ [a]
  | .popFront => l.tail
  | .popBack => l.dropLast

/-- Run a sequence of operations on the reference deque. -/
def runRefOps (l : List α) (ops : List (DequeOp α)) : List α :=
  ops.foldl refOp l

/-- Structural invariant of reachable deque states: the size fits in the
buffer, the front index is in range, and the increment factor is in the
validated interval `[1.1, 2]`. -/
def Inv (d : SlimDeque α) : Prop :=
  d.size ≤ d.cyclicBuffer.length ∧
  d.frontIndex < d.cyclicBuffer.length ∧
  MIN_ALLOWED_CAPACITY_INCREMENT_FACTOR ≤ d.capacityIncrementFactor ∧
  d.capacityIncrementFactor ≤ MAX_ALLOWED_CAPACITY_INCREMENT_FACTOR

/-- Refinement relation: the state is well-formed and its snapshot shows
exactly the reference list. -/
def Rel (d : SlimDeque α) (l : List α) : Prop :=
  Inv d ∧ d.getSnapshot = l.map some

/-! ### Helper lemmas about the traversal and the cyclic buffer -/

theorem traverseAux_length (len : ℕ) : ∀ (n cur : ℕ), (traverseAux len n cur).length = n := by
  intro n
  induction n with
  | zero => intro cur; rfl
  | succ m ih => intro cur; simp [traverseAux, ih]

theorem traverseAux_eq (len : ℕ) :
    ∀ (n cur : ℕ), cur < len →
      traverseAux len n cur = (List.range n).map (fun k => (cur + k) % len) := by
  intro n
  induction n with
  | zero => intro cur _; rfl
  | succ m ih =>
    intro cur hcur
    have hlen : 0 < len := by omega
    have hnext : (if cur + 1 = len then 0 else cur + 1) < len := by
      by_cases h : cur + 1 = len
      · simpa [h] using hlen
      · simp only [h, if_false]
        omega
    rw [traverseAux, ih _ hnext, List.range_succ_eq_map]
    simp only [List.map_cons, List.map_map]
    refine congrArg₂ _ ?_ ?_
    · exact (Nat.mod_eq_of_lt hcur).symm
    · refine List.map_congr_left ?_
      intro k _
      simp only [Function.comp]
      by_cases h : cur + 1 = len
      · have : cur + (k + 1) = len + k := by omega
        simp [h, this, Nat.add_mod_left]
      · simp only [h, if_false]
        congr 1
        omega

theorem length_getSnapshot (d : SlimDeque α) : d.getSnapshot.length = d.size := by
  simp [SlimDeque.getSnapshot, SlimDeque.traverseFromFrontToBack, traverseAux_length]

theorem getSnapshot_eq (d : SlimDeque α) (h : d.frontIndex < d.cyclicBuffer.length) :
    d.getSnapshot = (List.range d.size).map
      (fun k => d.cyclicBuffer.getD ((d.frontIndex + k) % d.cyclicBuffer.length) none) := by
  rw [SlimDeque.getSnapshot, SlimDeque.traverseFromFrontToBack, traverseAux_eq _ _ _ h,
    List.map_map]
  rfl

theorem mod_shift_inj {cap f k j : ℕ} (hk : k < cap) (hj : j < cap) :
    (f + k) % cap = (f + j) % cap ↔ k = j := by
  constructor
  · intro h
    have h2 : k ≡ j [MOD cap] := Nat.ModEq.add_left_cancel' f h
    have h3 : k % cap = j % cap := h2
    rwa [Nat.mod_eq_of_lt hk, Nat.mod_eq_of_lt hj] at h3
  · intro h
    rw [h]

theorem bufGet_natCast (buf : List (Option α)) (n : ℕ) :
    bufGet buf (n : ℤ) = buf.getD n none := by
  simp [bufGet]

theorem bufSet_natCast (buf : List (Option α)) (n : ℕ) (v : Option α) :
    bufSet buf (n : ℤ) v = buf.set n v := by
  simp [bufSet]

theorem getD_set_ne {γ : Type} (buf : List γ) {i j : ℕ} (v dflt : γ) (h : i ≠ j) :
    (buf.set i v).getD j dflt = buf.getD j dflt := by
  simp [List.getD_eq_getElem?_getD, List.getElem?_set_ne h]

theorem getD_set_self {γ : Type} (buf : List γ) {i : ℕ} (v dflt : γ) (h : i < buf.length) :
    (buf.set i v).getD i dflt = v := by
  simp [List.getD_eq_getElem?_getD, List.getElem?_set_self h]

theorem range_map_getD {γ : Type} (l : List γ) (dflt : γ) :
    (List.range l.length).map (fun k => l.getD k dflt) = l := by
  refine List.ext_getElem (by simp) ?_
  intro n h1 h2
  simp only [List.getElem_map, List.getElem_range]
  exact l.getD_eq_getElem dflt h2

/-! ### Computation of the fixed indices under the structural invariant -/

theorem fixIndex_nat (d : SlimDeque α) (x : ℕ) (hx : x < 2 * d.cyclicBuffer.length) :
    d.fixIndexIfNecessary (x : ℤ) = ((x % d.cyclicBuffer.length : ℕ) : ℤ) := by
  rw [SlimDeque.fixIndexIfNecessary]
  by_cases hge : d.cyclicBuffer.length ≤ x
  · rw [if_pos (by exact_mod_cast hge)]
    have h1 : x % d.cyclicBuffer.length = x - d.cyclicBuffer.length := by
      rw [Nat.mod_eq_sub_mod hge, Nat.mod_eq_of_lt (by omega)]
    rw [h1]
    omega
  · rw [if_neg (by exact_mod_cast hge), if_neg (by omega),
      Nat.mod_eq_of_lt (by omega)]

theorem calculateNewBackIndex_eq (d : SlimDeque α)
    (h1 : d.frontIndex < d.cyclicBuffer.length) (h2 : d.size ≤ d.cyclicBuffer.length) :
    d.calculateNewBackIndex =
      (((d.frontIndex + d.size) % d.cyclicBuffer.length : ℕ) : ℤ) := by
  rw [SlimDeque.calculateNewBackIndex]
  have hcast : ((d.frontIndex : ℤ) + d.size) = ((d.frontIndex + d.size : ℕ) : ℤ) := by
    push_cast; ring
  rw [hcast, fixIndex_nat _ _ (by omega)]

theorem calculateCurrentBackIndex_eq (d : SlimDeque α)
    (h1 : d.frontIndex < d.cyclicBuffer.length) (h2 : d.size ≤ d.cyclicBuffer.length)
    (h3 : 1 ≤ d.size) :
    d.calculateCurrentBackIndex =
      (((d.frontIndex + d.size - 1) % d.cyclicBuffer.length : ℕ) : ℤ) := by
  rw [SlimDeque.calculateCurrentBackIndex]
  have hcast : ((d.frontIndex : ℤ) + d.size - 1) = ((d.frontIndex + d.size - 1 : ℕ) : ℤ) := by
    omega
  rw [hcast, fixIndex_nat _ _ (by omega)]

theorem calculateNewFrontIndex_eq (d : SlimDeque α)
    (h1 : d.frontIndex < d.cyclicBuffer.length) :
    d.calculateNewFrontIndex =
      (((d.frontIndex + d.cyclicBuffer.length - 1) % d.cyclicBuffer.length : ℕ) : ℤ) := by
  rw [SlimDeque.calculateNewFrontIndex, SlimDeque.fixIndexIfNecessary]
  have hcap : 1 ≤ d.cyclicBuffer.length := by omega
  rcases Nat.eq_zero_or_pos d.frontIndex with h0 | hpos
  · rw [h0]
    rw [if_neg (by omega), if_pos (by omega)]
    rw [Nat.mod_eq_of_lt (by omega)]
    omega
  · rw [if_neg (by omega), if_neg (by omega)]
    have : d.frontIndex + d.cyclicBuffer.length - 1 =
        (d.frontIndex - 1) + d.cyclicBuffer.length := by omega
    rw [this, Nat.add_mod_right, Nat.mod_eq_of_lt (by omega)]
    omega

/-! ### The growth step -/

theorem newCapacityOf_gt (cap : ℕ) (f : ℚ) (hcap : 1 ≤ cap)
    (hf : MIN_ALLOWED_CAPACITY_INCREMENT_FACTOR ≤ f) : cap < newCapacityOf cap f := by
  rw [newCapacityOf, Int.lt_toNat, Int.lt_ceil]
  push_cast
  have hc : (1 : ℚ) ≤ (cap : ℚ) := by exact_mod_cast hcap
  have hf' : (11 : ℚ) / 10 ≤ f := hf
  nlinarith

theorem increaseCapacity_grow (d : SlimDeque α) (hlt : ¬ d.size < d.cyclicBuffer.length) :
    d.increaseCapacityIfNecessary =
      { d with
        cyclicBuffer := d.getSnapshot ++
          List.replicate
            (newCapacityOf d.cyclicBuffer.length d.capacityIncrementFactor -
              d.getSnapshot.length) none
        frontIndex := 0
        numberOfCapacityIncrements := d.numberOfCapacityIncrements + 1 } := by
  rw [SlimDeque.increaseCapacityIfNecessary]
  simp only [if_neg hlt]
  rfl

theorem increaseCapacity_spec (d : SlimDeque α) (h : Inv d) :
    Inv d.increaseCapacityIfNecessary ∧
    d.increaseCapacityIfNecessary.size = d.size ∧
    d.size < d.increaseCapacityIfNecessary.cyclicBuffer.length ∧
    d.increaseCapacityIfNecessary.getSnapshot = d.getSnapshot ∧
    d.increaseCapacityIfNecessary.capacityIncrementFactor = d.capacityIncrementFactor ∧
    d.cyclicBuffer.length ≤ d.increaseCapacityIfNecessary.cyclicBuffer.length := by
  obtain ⟨hsz, hfr, hf1, hf2⟩ := h
  by_cases hlt : d.size < d.cyclicBuffer.length
  · have hid : d.increaseCapacityIfNecessary = d := by
      rw [SlimDeque.increaseCapacityIfNecessary]
      simp [hlt]
    rw [hid]
    exact ⟨⟨hsz, hfr, hf1, hf2⟩, rfl, hlt, rfl, rfl, le_refl _⟩
  · have hcap1 : 1 ≤ d.cyclicBuffer.length := by omega
    have hszeq : d.size = d.cyclicBuffer.length := by omega
    have hnew : d.cyclicBuffer.length <
        newCapacityOf d.cyclicBuffer.length d.capacityIncrementFactor :=
      newCapacityOf_gt _ _ hcap1 hf1
    have hinc := increaseCapacity_grow d hlt
    have hlen_items : d.getSnapshot.length = d.size := length_getSnapshot d
    have hbuflen : d.increaseCapacityIfNecessary.cyclicBuffer.length =
        newCapacityOf d.cyclicBuffer.length d.capacityIncrementFactor := by
      rw [hinc]
      simp only [List.length_append, List.length_replicate, hlen_items]
      omega
    have hfr' : d.increaseCapacityIfNecessary.frontIndex <
        d.increaseCapacityIfNecessary.cyclicBuffer.length := by
      rw [hbuflen, hinc]
      simpa using by omega
    have hsz' : d.increaseCapacityIfNecessary.size = d.size := by rw [hinc]
    have hsnap : d.increaseCapacityIfNecessary.getSnapshot = d.getSnapshot := by
      rw [getSnapshot_eq _ hfr']
      have h0 : d.increaseCapacityIfNecessary.frontIndex = 0 := by rw [hinc]
      rw [hsz', h0, hbuflen]
      have hstep : ∀ k ∈ List.range d.size,
          d.increaseCapacityIfNecessary.cyclicBuffer.getD
            ((0 + k) % newCapacityOf d.cyclicBuffer.length d.capacityIncrementFactor)
            none = d.getSnapshot.getD k none := by
        intro k hk
        rw [List.mem_range] at hk
        rw [Nat.zero_add, Nat.mod_eq_of_lt (by omega), hinc]
        show (d.getSnapshot ++ _).getD k none = _
        exact List.getD_append _ _ _ _ (by omega)
      rw [List.map_congr_left hstep]
      have := range_map_getD d.getSnapshot none
      rw [hlen_items] at this
      exact this
    refine ⟨⟨?_, hfr', ?_, ?_⟩, hsz', ?_, hsnap, ?_, ?_⟩
    · rw [hsz', hbuflen]; omega
    · rw [hinc]; exact hf1
    · rw [hinc]; exact hf2
    · rw [hbuflen]; omega
    · rw [hinc]
    · rw [hbuflen]; omega

/-! ### Simulation of the public operations against the reference deque -/

theorem Rel.size_eq {d : SlimDeque α} {l : List α} (hR : Rel d l) : d.size = l.length := by
  have h1 := length_getSnapshot d
  rw [hR.2] at h1
  simpa using h1.symm

theorem rel_pushBack (d : SlimDeque α) (l : List α) (hR : Rel d l) (a : α) :
    Rel (d.pushBack a) (l ++ [a]) := by
  obtain ⟨hInv, hsnap⟩ := hR
  obtain ⟨hInv1, hsz1, hlt1, hsnap1, _hfac, _hle⟩ := increaseCapacity_spec d hInv
  have heq : d.pushBack a =
      { d.increaseCapacityIfNecessary with
        cyclicBuffer := bufSet d.increaseCapacityIfNecessary.cyclicBuffer
          d.increaseCapacityIfNecessary.calculateNewBackIndex (some a)
        size := d.increaseCapacityIfNecessary.size + 1 } := rfl
  rw [heq]
  have hsnapshot1 : d.increaseCapacityIfNecessary.getSnapshot = l.map some :=
    hsnap1.trans hsnap
  rw [← hsz1] at hlt1
  generalize d.increaseCapacityIfNecessary = d1 at *
  obtain ⟨hsz1le, hfr1, hg1, hg2⟩ := hInv1
  rw [calculateNewBackIndex_eq d1 hfr1 hsz1le, bufSet_natCast]
  have hblt : (d1.frontIndex + d1.size) % d1.cyclicBuffer.length < d1.cyclicBuffer.length :=
    Nat.mod_lt _ (by omega)
  refine ⟨⟨?_, ?_, hg1, hg2⟩, ?_⟩
  · show d1.size + 1 ≤ (d1.cyclicBuffer.set _ _).length
    rw [List.length_set]; omega
  · show d1.frontIndex < (d1.cyclicBuffer.set _ _).length
    rw [List.length_set]; omega
  · rw [getSnapshot_eq _ (by simpa [List.length_set] using hfr1)]
    show (List.range (d1.size + 1)).map
        (fun k => (d1.cyclicBuffer.set _ (some a)).getD
          ((d1.frontIndex + k) % (d1.cyclicBuffer.set _ (some a)).length) none) =
      (l ++ [a]).map some
    simp only [List.length_set, List.range_succ, List.map_append]
    refine congrArg₂ _ ?_ ?_
    · have hcongr : ∀ k ∈ List.range d1.size,
          (d1.cyclicBuffer.set ((d1.frontIndex + d1.size) % d1.cyclicBuffer.length)
            (some a)).getD ((d1.frontIndex + k) % d1.cyclicBuffer.length) none =
          d1.cyclicBuffer.getD ((d1.frontIndex + k) % d1.cyclicBuffer.length) none := by
        intro k hk
        rw [List.mem_range] at hk
        refine getD_set_ne _ _ _ (fun hc => ?_)
        have := (mod_shift_inj (f := d1.frontIndex) hlt1 (by omega)).mp hc
        omega
      rw [List.map_congr_left hcongr, ← getSnapshot_eq d1 hfr1, hsnapshot1]
    · simp only [List.map_cons, List.map_nil]
      rw [getD_set_self _ _ _ hblt]

theorem rel_pushFront (d : SlimDeque α) (l : List α) (hR : Rel d l) (a : α) :
    Rel (d.pushFront a) (a :: l) := by
  obtain ⟨hInv, hsnap⟩ := hR
  obtain ⟨hInv1, hsz1, hlt1, hsnap1, _hfac, _hle⟩ := increaseCapacity_spec d hInv
  have heq : d.pushFront a =
      { d.increaseCapacityIfNecessary with
        frontIndex := d.increaseCapacityIfNecessary.calculateNewFrontIndex.toNat
        cyclicBuffer := bufSet d.increaseCapacityIfNecessary.cyclicBuffer
          d.increaseCapacityIfNecessary.calculateNewFrontIndex (some a)
        size := d.increaseCapacityIfNecessary.size + 1 } := rfl
  rw [heq]
  have hsnapshot1 : d.increaseCapacityIfNecessary.getSnapshot = l.map some :=
    hsnap1.trans hsnap
  rw [← hsz1] at hlt1
  generalize d.increaseCapacityIfNecessary = d1 at *
  obtain ⟨hsz1le, hfr1, hg1, hg2⟩ := hInv1
  rw [calculateNewFrontIndex_eq d1 hfr1, bufSet_natCast, Int.toNat_natCast]
  have hcap : 0 < d1.cyclicBuffer.length := by omega
  have hnf : (d1.frontIndex + d1.cyclicBuffer.length - 1) % d1.cyclicBuffer.length <
      d1.cyclicBuffer.length := Nat.mod_lt _ hcap
  refine ⟨⟨?_, ?_, hg1, hg2⟩, ?_⟩
  · show d1.size + 1 ≤ (d1.cyclicBuffer.set _ _).length
    rw [List.length_set]; omega
  · show (d1.frontIndex + d1.cyclicBuffer.length - 1) % d1.cyclicBuffer.length <
      (d1.cyclicBuffer.set _ _).length
    rw [List.length_set]; omega
  · rw [getSnapshot_eq _ (by simpa [List.length_set] using hnf)]
    show (List.range (d1.size + 1)).map
        (fun k => (d1.cyclicBuffer.set _ (some a)).getD
          ((((d1.frontIndex + d1.cyclicBuffer.length - 1) % d1.cyclicBuffer.length) + k) %
            (d1.cyclicBuffer.set _ (some a)).length) none) =
      (a :: l).map some
    simp only [List.length_set, List.range_succ_eq_map, List.map_cons, List.map_map]
    refine congrArg₂ _ ?_ ?_
    · rw [Nat.add_zero, Nat.mod_eq_of_lt hnf, getD_set_self _ _ _ hnf]
    · have hcongr : ∀ k ∈ List.range d1.size,
          ((fun k => (d1.cyclicBuffer.set
              ((d1.frontIndex + d1.cyclicBuffer.length - 1) % d1.cyclicBuffer.length)
              (some a)).getD
            ((((d1.frontIndex + d1.cyclicBuffer.length - 1) % d1.cyclicBuffer.length) + k) %
              d1.cyclicBuffer.length) none) ∘ Nat.succ) k =
          d1.cyclicBuffer.getD ((d1.frontIndex + k) % d1.cyclicBuffer.length) none := by
        intro k hk
        rw [List.mem_range] at hk
        have hidx : (((d1.frontIndex + d1.cyclicBuffer.length - 1) % d1.cyclicBuffer.length) +
            Nat.succ k) % d1.cyclicBuffer.length =
            (d1.frontIndex + k) % d1.cyclicBuffer.length := by
          rw [Nat.mod_add_mod]
          have h1 : d1.frontIndex + d1.cyclicBuffer.length - 1 + Nat.succ k =
              d1.frontIndex + k + d1.cyclicBuffer.length := by omega
          rw [h1, Nat.add_mod_right]
        simp only [Function.comp]
        rw [hidx]
        refine getD_set_ne _ _ _ (fun hc => ?_)
        have h2 : d1.frontIndex + d1.cyclicBuffer.length - 1 =
            d1.frontIndex + (d1.cyclicBuffer.length - 1) := by omega
        rw [h2] at hc
        have := (mod_shift_inj (f := d1.frontIndex) (by omega) (by omega)).mp hc
        omega
      rw [List.map_congr_left hcongr, ← getSnapshot_eq d1 hfr1, hsnapshot1]

theorem wrapSucc_eq {front cap : ℕ} (h : front < cap) :
    (if front + 1 = cap then 0 else front + 1) = (front + 1) % cap := by
  by_cases he : front + 1 = cap
  · rw [if_pos he, he, Nat.mod_self]
  · rw [if_neg he, Nat.mod_eq_of_lt (by omega)]

theorem popFront_spec (d : SlimDeque α) (x : α) (l' : List α) (hR : Rel d (x :: l')) :
    ∃ d2, d.popFront = some (some x, d2) ∧ Rel d2 l' ∧
      d2.cyclicBuffer.length = d.cyclicBuffer.length ∧
      d2.numberOfCapacityIncrements = d.numberOfCapacityIncrements ∧
      d2.size = d.size - 1 := by
  have hsz' : d.size = l'.length + 1 := by simpa using hR.size_eq
  obtain ⟨⟨hszle, hfr, hg1, hg2⟩, hsnap⟩ := hR
  have h0 : ¬ d.size = 0 := by omega
  have hcap : 0 < d.cyclicBuffer.length := by omega
  have hmain : (List.range d.size).map
      (fun k => d.cyclicBuffer.getD ((d.frontIndex + k) % d.cyclicBuffer.length) none) =
      some x :: l'.map some := (getSnapshot_eq d hfr).symm.trans hsnap
  rw [hsz', List.range_succ_eq_map, List.map_cons, List.map_map] at hmain
  rw [List.cons_eq_cons] at hmain
  obtain ⟨hhead, htail⟩ := hmain
  rw [Nat.add_zero, Nat.mod_eq_of_lt hfr] at hhead
  have hpf : d.popFront = some (bufGet d.cyclicBuffer (d.frontIndex : ℤ),
      { d with
        cyclicBuffer := bufSet d.cyclicBuffer (d.frontIndex : ℤ) none
        frontIndex := if d.frontIndex + 1 = d.cyclicBuffer.length then 0
          else d.frontIndex + 1
        size := d.size - 1 }) := by
    rw [SlimDeque.popFront, if_neg h0]
  rw [bufGet_natCast, bufSet_natCast, hhead, wrapSucc_eq hfr] at hpf
  have hfr2 : (d.frontIndex + 1) % d.cyclicBuffer.length < d.cyclicBuffer.length :=
    Nat.mod_lt (d.frontIndex + 1) hcap
  refine ⟨_, hpf, ⟨⟨?_, ?_, hg1, hg2⟩, ?_⟩, ?_, ?_, ?_⟩
  · show d.size - 1 ≤ (d.cyclicBuffer.set d.frontIndex none).length
    rw [List.length_set]; omega
  · show (d.frontIndex + 1) % d.cyclicBuffer.length <
      (d.cyclicBuffer.set d.frontIndex none).length
    rw [List.length_set]; exact hfr2
  · rw [getSnapshot_eq _ (by simpa [List.length_set] using hfr2)]
    show (List.range (d.size - 1)).map
        (fun k => (d.cyclicBuffer.set d.frontIndex none).getD
          (((d.frontIndex + 1) % d.cyclicBuffer.length + k) %
            (d.cyclicBuffer.set d.frontIndex none).length) none) =
      l'.map some
    simp only [List.length_set]
    have hcongr : ∀ k ∈ List.range (d.size - 1),
        (d.cyclicBuffer.set d.frontIndex none).getD
          (((d.frontIndex + 1) % d.cyclicBuffer.length + k) % d.cyclicBuffer.length) none =
        ((fun k => d.cyclicBuffer.getD ((d.frontIndex + k) % d.cyclicBuffer.length) none) ∘
          Nat.succ) k := by
      intro k hk
      rw [List.mem_range] at hk
      rw [Nat.mod_add_mod]
      have h1 : d.frontIndex + 1 + k = d.frontIndex + (k + 1) := by omega
      rw [h1]
      simp only [Function.comp]
      refine getD_set_ne _ _ _ (fun hc => ?_)
      have hc2 : (d.frontIndex + 0) % d.cyclicBuffer.length =
          (d.frontIndex + (k + 1)) % d.cyclicBuffer.length := by
        rw [Nat.add_zero, Nat.mod_eq_of_lt hfr]
        exact hc
      have hk1 : k + 1 < d.cyclicBuffer.length := by omega
      have := (mod_shift_inj (f := d.frontIndex) hcap hk1).mp hc2
      omega
    rw [List.map_congr_left hcongr]
    have h3 : d.size - 1 = l'.length := by omega
    rw [h3, htail]
  · exact List.length_set _ _ _
  · rfl
  · rfl

theorem popBack_spec (d : SlimDeque α) (l' : List α) (x : α) (hR : Rel d (l' ++ [x])) :
    ∃ d2, d.popBack = some (some x, d2) ∧ Rel d2 l' ∧
      d2.cyclicBuffer.length = d.cyclicBuffer.length ∧
      d2.numberOfCapacityIncrements = d.numberOfCapacityIncrements ∧
      d2.size = d.size - 1 ∧ d2.frontIndex = d.frontIndex := by
  have hsz' : d.size = l'.length + 1 := by simpa using hR.size_eq
  obtain ⟨⟨hszle, hfr, hg1, hg2⟩, hsnap⟩ := hR
  have h0 : ¬ d.size = 0 := by omega
  have hcap : 0 < d.cyclicBuffer.length := by omega
  have hmain : (List.range d.size).map
      (fun k => d.cyclicBuffer.getD ((d.frontIndex + k) % d.cyclicBuffer.length) none) =
      l'.map some ++ [some x] := by
    rw [(getSnapshot_eq d hfr).symm.trans hsnap, List.map_append, List.map_cons, List.map_nil]
  rw [hsz', List.range_succ, List.map_append, List.map_cons, List.map_nil] at hmain
  obtain ⟨htail, hlast⟩ := List.append_inj hmain (by simp)
  rw [List.cons_eq_cons] at hlast
  have hlast' : d.cyclicBuffer.getD
      ((d.frontIndex + l'.length) % d.cyclicBuffer.length) none = some x := hlast.1
  have hbi : d.calculateCurrentBackIndex =
      (((d.frontIndex + d.size - 1) % d.cyclicBuffer.length : ℕ) : ℤ) :=
    calculateCurrentBackIndex_eq d hfr hszle (by omega)
  have hbi' : d.frontIndex + d.size - 1 = d.frontIndex + l'.length := by omega
  have hblt : (d.frontIndex + l'.length) % d.cyclicBuffer.length < d.cyclicBuffer.length :=
    Nat.mod_lt (d.frontIndex + l'.length) hcap
  have hpb : d.popBack = some (bufGet d.cyclicBuffer d.calculateCurrentBackIndex,
      { d with
        cyclicBuffer := bufSet d.cyclicBuffer d.calculateCurrentBackIndex none
        size := d.size - 1 }) := by
    rw [SlimDeque.popBack, if_neg h0]
  rw [hbi, hbi', bufGet_natCast, bufSet_natCast, hlast'] at hpb
  refine ⟨_, hpb, ⟨⟨?_, ?_, hg1, hg2⟩, ?_⟩, ?_, ?_, ?_, ?_⟩
  · show d.size - 1 ≤ (d.cyclicBuffer.set _ none).length
    rw [List.length_set]; omega
  · show d.frontIndex < (d.cyclicBuffer.set _ none).length
    rw [List.length_set]; omega
  · rw [getSnapshot_eq _ (by simpa [List.length_set] using hfr)]
    show (List.range (d.size - 1)).map
        (fun k => (d.cyclicBuffer.set ((d.frontIndex + l'.length) % d.cyclicBuffer.length)
          none).getD ((d.frontIndex + k) %
            (d.cyclicBuffer.set ((d.frontIndex + l'.length) % d.cyclicBuffer.length)
              none).length) none) =
      l'.map some
    simp only [List.length_set]
    have hcongr : ∀ k ∈ List.range (d.size - 1),
        (d.cyclicBuffer.set ((d.frontIndex + l'.length) % d.cyclicBuffer.length) none).getD
          ((d.frontIndex + k) % d.cyclicBuffer.length) none =
        d.cyclicBuffer.getD ((d.frontIndex + k) % d.cyclicBuffer.length) none := by
      intro k hk
      rw [List.mem_range] at hk
      refine getD_set_ne _ _ _ (fun hc => ?_)
      have := (mod_shift_inj (f := d.frontIndex) (by omega) (by omega)).mp hc
      omega
    rw [List.map_congr_left hcongr]
    have h3 : d.size - 1 = l'.length := by omega
    rw [h3, htail]
  · exact List.length_set _ _ _
  · rfl
  · rfl
  · rfl

theorem runOp_rel (d : SlimDeque α) (l : List α) (hR : Rel d l) (op : DequeOp α) :
    Rel (runOp d op) (refOp l op) := by
  cases op with
  | pushFront a => exact rel_pushFront d l hR a
  | pushBack a => exact rel_pushBack d l hR a
  | popFront =>
    cases l with
    | nil =>
      have hsz : d.size = 0 := by simpa using hR.size_eq
      show Rel ((d.popFront.map Prod.snd).getD d) List.nil.tail
      rw [SlimDeque.popFront, if_pos hsz]
      exact hR
    | cons x l' =>
      obtain ⟨d2, hpf, hrel, _, _, _⟩ := popFront_spec d x l' hR
      show Rel ((d.popFront.map Prod.snd).getD d) (x :: l').tail
      rw [hpf]
      exact hrel
  | popBack =>
    rcases List.eq_nil_or_concat l with hnil | ⟨l', x, hcat⟩
    · subst hnil
      have hsz : d.size = 0 := by simpa using hR.size_eq
      show Rel ((d.popBack.map Prod.snd).getD d) List.nil.dropLast
      rw [SlimDeque.popBack, if_pos hsz]
      exact hR
    · rw [List.concat_eq_append] at hcat
      subst hcat
      obtain ⟨d2, hpb, hrel, _, _, _, _⟩ := popBack_spec d l' x hR
      show Rel ((d.popBack.map Prod.snd).getD d) (l' ++ [x]).dropLast
      rw [hpb, List.dropLast_concat]
      exact hrel

theorem runOps_rel (d : SlimDeque α) (l : List α) (hR : Rel d l) (ops : List (DequeOp α)) :
    Rel (runOps d ops) (runRefOps l ops) := by
  induction ops generalizing d l with
  | nil => exact hR
  | cons op ops ih => exact ih _ _ (runOp_rel d l hR op)

theorem rel_mk (n : ℕ) (f : ℚ) (h1 : 1 ≤ n)
    (h2 : MIN_ALLOWED_CAPACITY_INCREMENT_FACTOR ≤ f)
    (h3 : f ≤ MAX_ALLOWED_CAPACITY_INCREMENT_FACTOR) :
    Rel (mkSlimDeque α n f) [] := by
  refine ⟨⟨?_, ?_, h2, h3⟩, ?_⟩
  · simp [mkSlimDeque]
  · simp only [mkSlimDeque, List.length_replicate]
    omega
  · rfl

/-! ### The clear loop -/

/-- Iterating the state change of `popFront()` a fixed number of times. -/
def popFrontTimes : ℕ → SlimDeque α → SlimDeque α
  | 0, d => d
  | n + 1, d => popFrontTimes n (popFrontStep d)

theorem length_bufSet (buf : List (Option α)) (i : ℤ) (v : Option α) :
    (bufSet buf i v).length = buf.length := by
  rw [bufSet]
  split
  · exact List.length_set _ _ _
  · rfl

theorem popFrontStep_fields (d : SlimDeque α) :
    (popFrontStep d).size = d.size - 1 ∧
    (popFrontStep d).cyclicBuffer.length = d.cyclicBuffer.length ∧
    (popFrontStep d).numberOfCapacityIncrements = d.numberOfCapacityIncrements ∧
    (popFrontStep d).capacityIncrementFactor = d.capacityIncrementFactor := by
  by_cases h : d.size = 0
  · have heq : popFrontStep d = d := by
      rw [popFrontStep, SlimDeque.popFront, if_pos h]
    rw [heq]
    exact ⟨by omega, rfl, rfl, rfl⟩
  · have heq : popFrontStep d =
        { d with
          cyclicBuffer := bufSet d.cyclicBuffer (d.frontIndex : ℤ) none
          frontIndex := if d.frontIndex + 1 = d.cyclicBuffer.length then 0
            else d.frontIndex + 1
          size := d.size - 1 } := by
      rw [popFrontStep, SlimDeque.popFront, if_neg h]
    rw [heq]
    refine ⟨rfl, ?_, rfl, rfl⟩
    show (bufSet d.cyclicBuffer (d.frontIndex : ℤ) none).length = d.cyclicBuffer.length
    exact length_bufSet _ _ _

theorem clearLoop_spec :
    ∀ (n : ℕ) (d : SlimDeque α), d.size = n →
      clearLoop d = popFrontTimes n d ∧ (clearLoop d).size = 0 ∧
      (clearLoop d).cyclicBuffer.length = d.cyclicBuffer.length ∧
      (clearLoop d).numberOfCapacityIncrements = d.numberOfCapacityIncrements ∧
      (clearLoop d).capacityIncrementFactor = d.capacityIncrementFactor := by
  intro n
  induction n with
  | zero =>
    intro d h
    rw [clearLoop, dif_pos h]
    exact ⟨rfl, h, rfl, rfl, rfl⟩
  | succ m ih =>
    intro d h
    have h0 : ¬ d.size = 0 := by omega
    obtain ⟨hs, hl, hc, hf⟩ := popFrontStep_fields d
    obtain ⟨ih1, ih2, ih3, ih4, ih5⟩ := ih (popFrontStep d) (by omega)
    rw [clearLoop, dif_neg h0]
    exact ⟨ih1, ih2, ih3.trans hl, ih4.trans hc, ih5.trans hf⟩

theorem increaseCapacity_full (d : SlimDeque α) (hInv : Inv d)
    (hfull : ¬ d.size < d.cyclicBuffer.length) :
    d.increaseCapacityIfNecessary.cyclicBuffer.length =
      newCapacityOf d.cyclicBuffer.length d.capacityIncrementFactor ∧
    d.increaseCapacityIfNecessary.numberOfCapacityIncrements =
      d.numberOfCapacityIncrements + 1 ∧
    d.increaseCapacityIfNecessary.frontIndex = 0 := by
  obtain ⟨hsz, hfr, hg1, hg2⟩ := hInv
  have hnew := newCapacityOf_gt d.cyclicBuffer.length d.capacityIncrementFactor (by omega) hg1
  have hinc := increaseCapacity_grow d hfull
  have hlen := length_getSnapshot d
  refine ⟨?_, by rw [hinc], by rw [hinc]⟩
  rw [hinc]
  simp only [List.length_append, List.length_replicate, hlen]
  omega

theorem increaseCapacity_not_full (d : SlimDeque α) (h : d.size < d.cyclicBuffer.length) :
    d.increaseCapacityIfNecessary = d := by
  rw [SlimDeque.increaseCapacityIfNecessary]
  simp [h]

/-- An operation that pushes (either end). -/
def isPushOp : DequeOp α → Bool
  | .pushFront _ => true
  | .pushBack _ => true
  | _ => false

/-- An operation that pops (either end). -/
def isPopOp : DequeOp α → Bool
  | .popFront => true
  | .popBack => true
  | _ => false

theorem runRefOps_pushes_length (l : List α) (ops : List (DequeOp α))
    (h : ∀ op ∈ ops, isPushOp op = true) :
    (runRefOps l ops).length = l.length + ops.length := by
  induction ops generalizing l with
  | nil => simp [runRefOps]
  | cons op ops ih =>
    have hop := h op (by simp)
    have hrest : ∀ o ∈ ops, isPushOp o = true := fun o ho => h o (by simp [ho])
    show (runRefOps (refOp l op) ops).length = l.length + (ops.length + 1)
    rw [ih _ hrest]
    cases op with
    | pushFront a => simp [refOp]; omega
    | pushBack a => simp [refOp]; omega
    | popFront => simp [isPushOp] at hop
    | popBack => simp [isPushOp] at hop

theorem runRefOps_pops_length (l : List α) (ops : List (DequeOp α))
    (h : ∀ op ∈ ops, isPopOp op = true) :
    (runRefOps l ops).length = l.length - ops.length := by
  induction ops generalizing l with
  | nil => simp [runRefOps]
  | cons op ops ih =>
    have hop := h op (by simp)
    have hrest : ∀ o ∈ ops, isPopOp o = true := fun o ho => h o (by simp [ho])
    show (runRefOps (refOp l op) ops).length = l.length - (ops.length + 1)
    rw [ih _ hrest]
    cases op with
    | popFront => simp [refOp]; omega
    | popBack => simp [refOp]; omega
    | pushFront a => simp [isPopOp] at hop
    | pushBack a => simp [isPopOp] at hop

/-! ### Claim theorems -/

/-- C1: for every sequence of push/pop operations (with any interleaved
growth they trigger) starting from a successfully constructed deque,
`getSnapshot` returns the items of the reference deque (the un-popped
pushes in front-to-back logical order), and its length is `size`. -/
theorem snapshot_refines_reference (n : ℕ) (f : ℚ) (ops : List (DequeOp α))
    (h1 : 1 ≤ n) (h2 : MIN_ALLOWED_CAPACITY_INCREMENT_FACTOR ≤ f)
    (h3 : f ≤ MAX_ALLOWED_CAPACITY_INCREMENT_FACTOR) :
    (runOps (mkSlimDeque α n f) ops).getSnapshot = (runRefOps [] ops).map some ∧
    (runOps (mkSlimDeque α n f) ops).size = (runRefOps ([] : List α) ops).length := by
  have h := runOps_rel _ _ (rel_mk n f h1 h2 h3) ops
  exact ⟨h.2, h.size_eq⟩

/-- Witness for C1 at a concrete instance. -/
theorem snapshot_refines_reference_witness :
    ((1 ≤ 2 ∧ MIN_ALLOWED_CAPACITY_INCREMENT_FACTOR ≤ (3/2 : ℚ) ∧
        (3/2 : ℚ) ≤ MAX_ALLOWED_CAPACITY_INCREMENT_FACTOR) ∧
      ((runOps (mkSlimDeque ℕ 2 (3/2))
          [DequeOp.pushBack 1, DequeOp.pushFront 2, DequeOp.popBack]).getSnapshot =
        (runRefOps [] [DequeOp.pushBack 1, DequeOp.pushFront 2, DequeOp.popBack]).map some ∧
      (runOps (mkSlimDeque ℕ 2 (3/2))
          [DequeOp.pushBack 1, DequeOp.pushFront 2, DequeOp.popBack]).size =
        (runRefOps ([] : List ℕ)
          [DequeOp.pushBack 1, DequeOp.pushFront 2, DequeOp.popBack]).length)) :=
  ⟨⟨by decide, by norm_num [MIN_ALLOWED_CAPACITY_INCREMENT_FACTOR],
      by norm_num [MAX_ALLOWED_CAPACITY_INCREMENT_FACTOR]⟩,
    snapshot_refines_reference 2 (3/2) _ (by decide)
      (by norm_num [MIN_ALLOWED_CAPACITY_INCREMENT_FACTOR])
      (by norm_num [MAX_ALLOWED_CAPACITY_INCREMENT_FACTOR])⟩

/-- C2: for every sequence of operations starting from a successfully
constructed deque, `0 ≤ size ≤ capacity` holds and `frontIndex` lies in
`[0, capacity)`. -/
theorem size_within_capacity (n : ℕ) (f : ℚ) (ops : List (DequeOp α))
    (h1 : 1 ≤ n) (h2 : MIN_ALLOWED_CAPACITY_INCREMENT_FACTOR ≤ f)
    (h3 : f ≤ MAX_ALLOWED_CAPACITY_INCREMENT_FACTOR) :
    0 ≤ (runOps (mkSlimDeque α n f) ops).size ∧
    (runOps (mkSlimDeque α n f) ops).size ≤ (runOps (mkSlimDeque α n f) ops).capacity ∧
    0 ≤ (runOps (mkSlimDeque α n f) ops).frontIndex ∧
    (runOps (mkSlimDeque α n f) ops).frontIndex < (runOps (mkSlimDeque α n f) ops).capacity := by
  have h := runOps_rel _ _ (rel_mk n f h1 h2 h3) ops
  exact ⟨Nat.zero_le _, h.1.1, Nat.zero_le _, h.1.2.1⟩

/-- Witness for C2 at a concrete instance. -/
theorem size_within_capacity_witness :
    ((1 ≤ 1 ∧ MIN_ALLOWED_CAPACITY_INCREMENT_FACTOR ≤ (11/10 : ℚ) ∧
        (11/10 : ℚ) ≤ MAX_ALLOWED_CAPACITY_INCREMENT_FACTOR) ∧
      (0 ≤ (runOps (mkSlimDeque ℕ 1 (11/10)) [DequeOp.pushBack 3, DequeOp.pushBack 4]).size ∧
      (runOps (mkSlimDeque ℕ 1 (11/10)) [DequeOp.pushBack 3, DequeOp.pushBack 4]).size ≤
        (runOps (mkSlimDeque ℕ 1 (11/10)) [DequeOp.pushBack 3, DequeOp.pushBack 4]).capacity ∧
      0 ≤ (runOps (mkSlimDeque ℕ 1 (11/10)) [DequeOp.pushBack 3, DequeOp.pushBack 4]).frontIndex ∧
      (runOps (mkSlimDeque ℕ 1 (11/10)) [DequeOp.pushBack 3, DequeOp.pushBack 4]).frontIndex <
        (runOps (mkSlimDeque ℕ 1 (11/10)) [DequeOp.pushBack 3, DequeOp.pushBack 4]).capacity)) :=
  ⟨⟨by decide, by norm_num [MIN_ALLOWED_CAPACITY_INCREMENT_FACTOR],
      by norm_num [MAX_ALLOWED_CAPACITY_INCREMENT_FACTOR]⟩,
    size_within_capacity 1 (11/10) _ (by decide)
      (by norm_num [MIN_ALLOWED_CAPACITY_INCREMENT_FACTOR])
      (by norm_num [MAX_ALLOWED_CAPACITY_INCREMENT_FACTOR])⟩

/-- C6: on an empty deque, `front`, `back`, `popFront` and `popBack` all
fail with the empty-collection error (modelled as `none`), and a failing
pop leaves the state unchanged. -/
theorem empty_deque_operations_fail (d : SlimDeque α) (h : d.size = 0) :
    d.front = none ∧ d.back = none ∧ d.popFront = none ∧ d.popBack = none ∧
    runOp d DequeOp.popFront = d ∧ runOp d DequeOp.popBack = d := by
  refine ⟨?_, ?_, ?_, ?_, ?_, ?_⟩
  · rw [SlimDeque.front, if_pos h]
  · rw [SlimDeque.back, if_pos h]
  · rw [SlimDeque.popFront, if_pos h]
  · rw [SlimDeque.popBack, if_pos h]
  · show (d.popFront.map Prod.snd).getD d = d
    rw [SlimDeque.popFront, if_pos h]
    rfl
  · show (d.popBack.map Prod.snd).getD d = d
    rw [SlimDeque.popBack, if_pos h]
    rfl

/-- Witness for C6 at a concrete instance. -/
theorem empty_deque_operations_fail_witness :
    ((mkSlimDeque ℕ 3 (3/2)).size = 0 ∧
      ((mkSlimDeque ℕ 3 (3/2)).front = none ∧ (mkSlimDeque ℕ 3 (3/2)).back = none ∧
      (mkSlimDeque ℕ 3 (3/2)).popFront = none ∧ (mkSlimDeque ℕ 3 (3/2)).popBack = none ∧
      runOp (mkSlimDeque ℕ 3 (3/2)) DequeOp.popFront = mkSlimDeque ℕ 3 (3/2) ∧
      runOp (mkSlimDeque ℕ 3 (3/2)) DequeOp.popBack = mkSlimDeque ℕ 3 (3/2))) :=
  ⟨rfl, empty_deque_operations_fail (mkSlimDeque ℕ 3 (3/2)) rfl⟩

/-- C8: `clear()` results in `size == 0` and `frontIndex == 0`, equals
popping from the front `size` times followed by resetting `frontIndex`,
and leaves capacity and the reallocation counter unchanged. -/
theorem clear_correct (d : SlimDeque α) :
    d.clear = { popFrontTimes d.size d with frontIndex := 0 } ∧
    d.clear.size = 0 ∧ d.clear.frontIndex = 0 ∧
    d.clear.capacity = d.capacity ∧
    d.clear.numberOfCapacityIncrements = d.numberOfCapacityIncrements := by
  obtain ⟨h1, h2, h3, h4, _⟩ := clearLoop_spec d.size d rfl
  refine ⟨?_, ?_, rfl, ?_, ?_⟩
  · rw [SlimDeque.clear, h1]
  · show (clearLoop d).size = 0
    exact h2
  · show (clearLoop d).cyclicBuffer.length = d.cyclicBuffer.length
    exact h3
  · show (clearLoop d).numberOfCapacityIncrements = d.numberOfCapacityIncrements
    exact h4

/-- C3: pushing (either end) when `size == capacity` increments the
reallocation counter by exactly 1 and sets capacity to
`ceil(oldCapacity * capacityIncrementFactor)`; pushing when
`size < capacity` leaves capacity and the counter unchanged. -/
theorem growth_trigger (d : SlimDeque α) (a : α) (hInv : Inv d) :
    (d.size = d.capacity →
      (((d.pushBack a).capacity : ℤ) =
          Int.ceil ((d.capacity : ℚ) * d.capacityIncrementFactor) ∧
        (d.pushBack a).numberOfCapacityIncrements = d.numberOfCapacityIncrements + 1 ∧
        ((d.pushFront a).capacity : ℤ) =
          Int.ceil ((d.capacity : ℚ) * d.capacityIncrementFactor) ∧
        (d.pushFront a).numberOfCapacityIncrements = d.numberOfCapacityIncrements + 1)) ∧
    (d.size < d.capacity →
      ((d.pushBack a).capacity = d.capacity ∧
        (d.pushBack a).numberOfCapacityIncrements = d.numberOfCapacityIncrements ∧
        (d.pushFront a).capacity = d.capacity ∧
        (d.pushFront a).numberOfCapacityIncrements = d.numberOfCapacityIncrements)) := by
  have hpbLen : (d.pushBack a).capacity =
      d.increaseCapacityIfNecessary.cyclicBuffer.length := by
    show (bufSet d.increaseCapacityIfNecessary.cyclicBuffer _ _).length = _
    exact length_bufSet _ _ _
  have hpfLen : (d.pushFront a).capacity =
      d.increaseCapacityIfNecessary.cyclicBuffer.length := by
    show (bufSet d.increaseCapacityIfNecessary.cyclicBuffer _ _).length = _
    exact length_bufSet _ _ _
  have hpbCnt : (d.pushBack a).numberOfCapacityIncrements =
      d.increaseCapacityIfNecessary.numberOfCapacityIncrements := rfl
  have hpfCnt : (d.pushFront a).numberOfCapacityIncrements =
      d.increaseCapacityIfNecessary.numberOfCapacityIncrements := rfl
  constructor
  · intro hfull
    have hnotlt : ¬ d.size < d.cyclicBuffer.length := by
      rw [SlimDeque.capacity] at hfull
      omega
    obtain ⟨hl, hc, _⟩ := increaseCapacity_full d hInv hnotlt
    have hceil : ((newCapacityOf d.cyclicBuffer.length d.capacityIncrementFactor : ℕ) : ℤ) =
        Int.ceil ((d.cyclicBuffer.length : ℚ) * d.capacityIncrementFactor) := by
      rw [newCapacityOf]
      refine Int.toNat_of_nonneg (Int.ceil_nonneg ?_)
      have h0 : (0 : ℚ) ≤ d.capacityIncrementFactor := by
        have := hInv.2.2.1
        rw [MIN_ALLOWED_CAPACITY_INCREMENT_FACTOR] at this
        nlinarith
      positivity
    rw [hpbLen, hpfLen, hpbCnt, hpfCnt, hl, hc]
    exact ⟨hceil, rfl, hceil, rfl⟩
  · intro hlt
    rw [SlimDeque.capacity] at hlt
    rw [hpbLen, hpfLen, hpbCnt, hpfCnt, increaseCapacity_not_full d hlt]
    exact ⟨rfl, rfl, rfl, rfl⟩

/-- Witness for C3 at a concrete instance. -/
theorem growth_trigger_witness :
    (Inv (mkSlimDeque ℕ 2 (3/2)) ∧
      (((mkSlimDeque ℕ 2 (3/2)).size = (mkSlimDeque ℕ 2 (3/2)).capacity →
        ((((mkSlimDeque ℕ 2 (3/2)).pushBack 7).capacity : ℤ) =
            Int.ceil (((mkSlimDeque ℕ 2 (3/2)).capacity : ℚ) *
              (mkSlimDeque ℕ 2 (3/2)).capacityIncrementFactor) ∧
          ((mkSlimDeque ℕ 2 (3/2)).pushBack 7).numberOfCapacityIncrements =
            (mkSlimDeque ℕ 2 (3/2)).numberOfCapacityIncrements + 1 ∧
          ((((mkSlimDeque ℕ 2 (3/2)).pushFront 7).capacity : ℤ) =
            Int.ceil (((mkSlimDeque ℕ 2 (3/2)).capacity : ℚ) *
              (mkSlimDeque ℕ 2 (3/2)).capacityIncrementFactor)) ∧
          ((mkSlimDeque ℕ 2 (3/2)).pushFront 7).numberOfCapacityIncrements =
            (mkSlimDeque ℕ 2 (3/2)).numberOfCapacityIncrements + 1)) ∧
      ((mkSlimDeque ℕ 2 (3/2)).size < (mkSlimDeque ℕ 2 (3/2)).capacity →
        (((mkSlimDeque ℕ 2 (3/2)).pushBack 7).capacity = (mkSlimDeque ℕ 2 (3/2)).capacity ∧
          ((mkSlimDeque ℕ 2 (3/2)).pushBack 7).numberOfCapacityIncrements =
            (mkSlimDeque ℕ 2 (3/2)).numberOfCapacityIncrements ∧
          ((mkSlimDeque ℕ 2 (3/2)).pushFront 7).capacity = (mkSlimDeque ℕ 2 (3/2)).capacity ∧
          ((mkSlimDeque ℕ 2 (3/2)).pushFront 7).numberOfCapacityIncrements =
            (mkSlimDeque ℕ 2 (3/2)).numberOfCapacityIncrements)))) :=
  have hInv : Inv (mkSlimDeque ℕ 2 (3/2)) :=
    ⟨by decide, by decide, by norm_num [MIN_ALLOWED_CAPACITY_INCREMENT_FACTOR, mkSlimDeque],
      by norm_num [MAX_ALLOWED_CAPACITY_INCREMENT_FACTOR, mkSlimDeque]⟩
  ⟨hInv, growth_trigger (mkSlimDeque ℕ 2 (3/2)) 7 hInv⟩

/-- C4: when growth occurs, afterwards `frontIndex` is 0, the occupied
items have been copied in front-to-back order into indices
`0..size-1` of the new buffer, and the logical contents (the snapshot)
are unchanged. -/
theorem growth_preserves_contents (d : SlimDeque α) (hInv : Inv d)
    (hfull : d.size = d.capacity) :
    d.increaseCapacityIfNecessary.frontIndex = 0 ∧
    d.increaseCapacityIfNecessary.getSnapshot = d.getSnapshot ∧
    (∀ k, k < d.size →
      d.increaseCapacityIfNecessary.cyclicBuffer.getD k none =
        d.getSnapshot.getD k none) := by
  have hnotlt : ¬ d.size < d.cyclicBuffer.length := by
    rw [SlimDeque.capacity] at hfull
    omega
  obtain ⟨_, _, _, hsnap, _, _⟩ := increaseCapacity_spec d hInv
  obtain ⟨_, _, hfr0⟩ := increaseCapacity_full d hInv hnotlt
  refine ⟨hfr0, hsnap, ?_⟩
  intro k hk
  rw [increaseCapacity_grow d hnotlt]
  show (d.getSnapshot ++ _).getD k none = _
  exact List.getD_append _ _ _ _ (by rw [length_getSnapshot]; omega)

/-- Witness for C4 at a concrete instance (a full deque of capacity 1). -/
theorem growth_preserves_contents_witness :
    (Inv ((mkSlimDeque ℕ 1 (3/2)).pushBack 9) ∧
      ((mkSlimDeque ℕ 1 (3/2)).pushBack 9).size =
        ((mkSlimDeque ℕ 1 (3/2)).pushBack 9).capacity) ∧
    (((mkSlimDeque ℕ 1 (3/2)).pushBack 9).increaseCapacityIfNecessary.frontIndex = 0 ∧
      ((mkSlimDeque ℕ 1 (3/2)).pushBack 9).increaseCapacityIfNecessary.getSnapshot =
        ((mkSlimDeque ℕ 1 (3/2)).pushBack 9).getSnapshot ∧
      (∀ k, k < ((mkSlimDeque ℕ 1 (3/2)).pushBack 9).size →
        ((mkSlimDeque ℕ 1 (3/2)).pushBack 9).increaseCapacityIfNecessary.cyclicBuffer.getD
            k none =
          ((mkSlimDeque ℕ 1 (3/2)).pushBack 9).getSnapshot.getD k none)) :=
  have hInv : Inv ((mkSlimDeque ℕ 1 (3/2)).pushBack 9) :=
    ⟨by decide, by decide, by norm_num [MIN_ALLOWED_CAPACITY_INCREMENT_FACTOR, mkSlimDeque,
        SlimDeque.pushBack, SlimDeque.increaseCapacityIfNecessary],
      by norm_num [MAX_ALLOWED_CAPACITY_INCREMENT_FACTOR, mkSlimDeque,
        SlimDeque.pushBack, SlimDeque.increaseCapacityIfNecessary]⟩
  ⟨⟨hInv, by decide⟩, growth_preserves_contents ((mkSlimDeque ℕ 1 (3/2)).pushBack 9) hInv
    (by decide)⟩

/-- C5: for every capacity at least 1 and factor in the validated range,
the capacity computed at growth is strictly larger, and no single
operation ever decreases the capacity. -/
theorem capacity_growth_progress :
    (∀ (cap : ℕ) (f : ℚ), 1 ≤ cap →
      MIN_ALLOWED_CAPACITY_INCREMENT_FACTOR ≤ f →
      f ≤ MAX_ALLOWED_CAPACITY_INCREMENT_FACTOR →
      cap < newCapacityOf cap f) ∧
    (∀ (d : SlimDeque α) (op : DequeOp α), Inv d →
      d.capacity ≤ (runOp d op).capacity) := by
  constructor
  · intro cap f h1 h2 _h3
    exact newCapacityOf_gt cap f h1 h2
  · intro d op hInv
    obtain ⟨_, _, _, _, _, hle⟩ := increaseCapacity_spec d hInv
    cases op with
    | pushFront a =>
      have hlen : (d.pushFront a).capacity =
          d.increaseCapacityIfNecessary.cyclicBuffer.length := by
        show (bufSet d.increaseCapacityIfNecessary.cyclicBuffer _ _).length = _
        exact length_bufSet _ _ _
      show d.capacity ≤ (d.pushFront a).capacity
      rw [hlen]
      exact hle
    | pushBack a =>
      have hlen : (d.pushBack a).capacity =
          d.increaseCapacityIfNecessary.cyclicBuffer.length := by
        show (bufSet d.increaseCapacityIfNecessary.cyclicBuffer _ _).length = _
        exact length_bufSet _ _ _
      show d.capacity ≤ (d.pushBack a).capacity
      rw [hlen]
      exact hle
    | popFront =>
      show d.capacity ≤ ((d.popFront.map Prod.snd).getD d).capacity
      rw [SlimDeque.popFront]
      by_cases h : d.size = 0
      · rw [if_pos h]
        exact le_refl _
      · rw [if_neg h]
        show d.capacity ≤ (bufSet d.cyclicBuffer (d.frontIndex : ℤ) none).length
        rw [length_bufSet]
        exact le_refl _
    | popBack =>
      show d.capacity ≤ ((d.popBack.map Prod.snd).getD d).capacity
      rw [SlimDeque.popBack]
      by_cases h : d.size = 0
      · rw [if_pos h]
        exact le_refl _
      · rw [if_neg h]
        show d.capacity ≤ (bufSet d.cyclicBuffer d.calculateCurrentBackIndex none).length
        rw [length_bufSet]
        exact le_refl _

/-- Witness for C5 at a concrete instance. -/
theorem capacity_growth_progress_witness :
    (1 ≤ 1 ∧ Inv (mkSlimDeque ℕ 1 (11/10))) ∧
    (1 < newCapacityOf 1 MIN_ALLOWED_CAPACITY_INCREMENT_FACTOR ∧
      (mkSlimDeque ℕ 1 (11/10)).capacity ≤
        (runOp (mkSlimDeque ℕ 1 (11/10)) (DequeOp.pushBack 5)).capacity) :=
  have hInv : Inv (mkSlimDeque ℕ 1 (11/10)) :=
    ⟨by decide, by decide, by norm_num [MIN_ALLOWED_CAPACITY_INCREMENT_FACTOR, mkSlimDeque],
      by norm_num [MAX_ALLOWED_CAPACITY_INCREMENT_FACTOR, mkSlimDeque]⟩
  ⟨⟨le_refl 1, hInv⟩,
    ⟨(capacity_growth_progress (α := ℕ)).1 1 MIN_ALLOWED_CAPACITY_INCREMENT_FACTOR (le_refl 1)
        (le_refl _) (by norm_num [MIN_ALLOWED_CAPACITY_INCREMENT_FACTOR,
          MAX_ALLOWED_CAPACITY_INCREMENT_FACTOR]),
      (capacity_growth_progress (α := ℕ)).2 (mkSlimDeque ℕ 1 (11/10))
        (DequeOp.pushBack 5) hInv⟩⟩

theorem jsGe_fin (a b : ℚ) : (JSNum.fin a).jsGe (JSNum.fin b) = decide (b ≤ a) := rfl

theorem jsLt_fin (a b : ℚ) : (JSNum.fin a).jsLt (JSNum.fin b) = decide (a < b) := rfl

theorem strictEq_fin (a b : ℚ) :
    (JSNum.fin a).strictEq (JSNum.fin b) = decide (JSNum.fin a = JSNum.fin b) := rfl

theorem jsFloor_fin (a : ℚ) :
    (JSNum.fin a).jsFloor = JSNum.fin ((Int.floor a : ℤ) : ℚ) := rfl

/-- C7 counterexample: with `initialCapacity = 5` and
`capacityIncrementFactor = NaN`, the factor lies outside `[1.1, 2.0]`
(it is not even finite) yet the constructor does not throw, because both
JavaScript comparisons against `NaN` are false. -/
theorem constructor_nan_passes_validation :
    constructorThrows (JSNum.fin 5) JSNum.nan = false ∧
    ¬ factorInRangeSpec JSNum.nan := by
  constructor
  · rw [constructorThrows, isNaturalNumber]
    simp only [jsFloor_fin, jsGe_fin, strictEq_fin, validateCapacityIncrementFactorThrows]
    norm_num [JSNum.jsLt]
  · simp [factorInRangeSpec]

/-- C7 (amended): restricted to finite number inputs, construction fails
with `InvalidArgument` if and only if `initialCapacity` is not a positive
integer or the factor lies outside `[1.1, 2.0]`; a successfully
constructed deque has the given capacity, `frontIndex = 0`, `size = 0` and
a zero reallocation counter. -/
theorem constructor_validation_amended :
    (∀ c f : ℚ, constructorThrows (JSNum.fin c) (JSNum.fin f) = false ↔
      (isPositiveIntegerSpec (JSNum.fin c) ∧ factorInRangeSpec (JSNum.fin f))) ∧
    (∀ (n : ℕ) (q : ℚ), (mkSlimDeque α n q).capacity = n ∧
      (mkSlimDeque α n q).frontIndex = 0 ∧ (mkSlimDeque α n q).size = 0 ∧
      (mkSlimDeque α n q).numberOfCapacityIncrements = 0) := by
  constructor
  · intro c f
    rw [constructorThrows, isNaturalNumber]
    simp only [jsFloor_fin, jsGe_fin, strictEq_fin, validateCapacityIncrementFactorThrows,
      jsLt_fin, MIN_ALLOWED_CAPACITY_INCREMENT_FACTOR, MAX_ALLOWED_CAPACITY_INCREMENT_FACTOR,
      isPositiveIntegerSpec, factorInRangeSpec, Bool.or_eq_false_iff, Bool.not_eq_false',
      Bool.and_eq_true, decide_eq_true_eq, decide_eq_false_iff_not, not_lt, JSNum.fin.injEq]
    constructor
    · rintro ⟨⟨hge, heq⟩, hmin, hmax⟩
      refine ⟨⟨?_, heq⟩, hmin, hmax⟩
      rw [← heq]
      exact_mod_cast hge
    · rintro ⟨⟨hge, heq⟩, hmin, hmax⟩
      refine ⟨⟨?_, heq⟩, hmin, hmax⟩
      rw [heq]
      exact hge
  · intro n q
    refine ⟨?_, rfl, rfl, rfl⟩
    simp [mkSlimDeque, SlimDeque.capacity]

/-- C9: pushing `N` items (any mix of ends) and then popping `N` items
(any mix of ends) returns the deque to `isEmpty` and `size = 0`;
`frontIndex` is reset to 0 by an explicit `clear()` — and only by it, as
witnessed by a concrete round trip that ends empty with a nonzero
`frontIndex`. -/
theorem round_trip_empties (n : ℕ) (f : ℚ) (pushes pops : List (DequeOp α)) (N : ℕ)
    (h1 : 1 ≤ n) (h2 : MIN_ALLOWED_CAPACITY_INCREMENT_FACTOR ≤ f)
    (h3 : f ≤ MAX_ALLOWED_CAPACITY_INCREMENT_FACTOR)
    (hpush : ∀ op ∈ pushes, isPushOp op = true)
    (hpop : ∀ op ∈ pops, isPopOp op = true)
    (hlen1 : pushes.length = N) (hlen2 : pops.length = N) :
    (runOps (mkSlimDeque α n f) (pushes ++ pops)).isEmpty = true ∧
    (runOps (mkSlimDeque α n f) (pushes ++ pops)).size = 0 ∧
    (runOps (mkSlimDeque α n f) (pushes ++ pops)).clear.frontIndex = 0 ∧
    (runOps (mkSlimDeque ℕ 2 (3/2)) [DequeOp.pushBack 7, DequeOp.popFront]).size = 0 ∧
    (runOps (mkSlimDeque ℕ 2 (3/2)) [DequeOp.pushBack 7, DequeOp.popFront]).frontIndex ≠ 0 := by
  have hrel := runOps_rel _ _ (rel_mk n f h1 h2 h3) (pushes ++ pops)
  have hlen : (runRefOps ([] : List α) (pushes ++ pops)).length = 0 := by
    rw [runRefOps, List.foldl_append]
    have hp : (runRefOps ([] : List α) pushes).length = 0 + pushes.length :=
      runRefOps_pushes_length [] pushes hpush
    have hq := runRefOps_pops_length (runRefOps ([] : List α) pushes) pops hpop
    simp only [runRefOps] at hp hq
    rw [hq, hp]
    omega
  have hsize : (runOps (mkSlimDeque α n f) (pushes ++ pops)).size = 0 := by
    rw [hrel.size_eq, hlen]
  refine ⟨?_, hsize, rfl, by decide, by decide⟩
  rw [SlimDeque.isEmpty, hsize]
  rfl

/-- Witness for C9 at a concrete instance. -/
theorem round_trip_empties_witness :
    ((1 ≤ 1 ∧ (∀ op ∈ [DequeOp.pushBack 4, DequeOp.pushFront 6], isPushOp op = true) ∧
        (∀ op ∈ ([DequeOp.popBack, DequeOp.popBack] : List (DequeOp ℕ)), isPopOp op = true)) ∧
      ((runOps (mkSlimDeque ℕ 1 (3/2))
          ([DequeOp.pushBack 4, DequeOp.pushFront 6] ++
            [DequeOp.popBack, DequeOp.popBack])).isEmpty = true ∧
        (runOps (mkSlimDeque ℕ 1 (3/2))
          ([DequeOp.pushBack 4, DequeOp.pushFront 6] ++
            [DequeOp.popBack, DequeOp.popBack])).size = 0 ∧
        (runOps (mkSlimDeque ℕ 1 (3/2))
          ([DequeOp.pushBack 4, DequeOp.pushFront 6] ++
            [DequeOp.popBack, DequeOp.popBack])).clear.frontIndex = 0 ∧
        (runOps (mkSlimDeque ℕ 2 (3/2)) [DequeOp.pushBack 7, DequeOp.popFront]).size = 0 ∧
        (runOps (mkSlimDeque ℕ 2 (3/2))
          [DequeOp.pushBack 7, DequeOp.popFront]).frontIndex ≠ 0)) :=
  ⟨⟨by decide, by decide, by decide⟩,
    round_trip_empties 1 (3/2) [DequeOp.pushBack 4, DequeOp.pushFront 6]
      [DequeOp.popBack, DequeOp.popBack] 2 (by decide)
      (by norm_num [MIN_ALLOWED_CAPACITY_INCREMENT_FACTOR])
      (by norm_num [MAX_ALLOWED_CAPACITY_INCREMENT_FACTOR])
      (by decide) (by decide) (by decide) (by decide)⟩

/-- C10: on a deque of size 1, the `front` and `back` getters agree, and
`popFront` returns the same item that `popBack` would return from that
state, each leaving the deque empty. -/
theorem singleton_front_back (d : SlimDeque α) (hInv : Inv d) (h1 : d.size = 1) :
    d.front = d.back ∧
    (∃ v d1 d2, d.popFront = some (v, d1) ∧ d.popBack = some (v, d2) ∧
      d.front = some v ∧ d1.size = 0 ∧ d2.size = 0) := by
  obtain ⟨hsz, hfr, _, _⟩ := hInv
  have h0 : ¬ d.size = 0 := by omega
  have hmod : (d.frontIndex + d.size - 1) % d.cyclicBuffer.length = d.frontIndex := by
    rw [h1]
    simp [Nat.mod_eq_of_lt hfr]
  have hbi : d.calculateCurrentBackIndex = ((d.frontIndex : ℕ) : ℤ) := by
    rw [calculateCurrentBackIndex_eq d hfr hsz (by omega), hmod]
  constructor
  · rw [SlimDeque.front, SlimDeque.back, hbi]
  · refine ⟨bufGet d.cyclicBuffer (d.frontIndex : ℤ),
      { d with
        cyclicBuffer := bufSet d.cyclicBuffer (d.frontIndex : ℤ) none
        frontIndex := if d.frontIndex + 1 = d.cyclicBuffer.length then 0
          else d.frontIndex + 1
        size := d.size - 1 },
      { d with
        cyclicBuffer := bufSet d.cyclicBuffer (d.frontIndex : ℤ) none
        size := d.size - 1 },
      ?_, ?_, ?_, ?_, ?_⟩
    · rw [SlimDeque.popFront, if_neg h0]
    · rw [SlimDeque.popBack, if_neg h0]
      rw [hbi]
    · rw [SlimDeque.front, if_neg h0]
    · show d.size - 1 = 0
      omega
    · show d.size - 1 = 0
      omega

/-- Witness for C10 at a concrete instance. -/
theorem singleton_front_back_witness :
    ((Inv ((mkSlimDeque ℕ 2 (3/2)).pushBack 5) ∧
        ((mkSlimDeque ℕ 2 (3/2)).pushBack 5).size = 1) ∧
      (((mkSlimDeque ℕ 2 (3/2)).pushBack 5).front =
        ((mkSlimDeque ℕ 2 (3/2)).pushBack 5).back ∧
      (∃ v d1 d2, ((mkSlimDeque ℕ 2 (3/2)).pushBack 5).popFront = some (v, d1) ∧
        ((mkSlimDeque ℕ 2 (3/2)).pushBack 5).popBack = some (v, d2) ∧
        ((mkSlimDeque ℕ 2 (3/2)).pushBack 5).front = some v ∧
        d1.size = 0 ∧ d2.size = 0))) :=
  have hInv : Inv ((mkSlimDeque ℕ 2 (3/2)).pushBack 5) :=
    ⟨by decide, by decide, by norm_num [MIN_ALLOWED_CAPACITY_INCREMENT_FACTOR, mkSlimDeque,
        SlimDeque.pushBack, SlimDeque.increaseCapacityIfNecessary],
      by norm_num [MAX_ALLOWED_CAPACITY_INCREMENT_FACTOR, mkSlimDeque,
        SlimDeque.pushBack, SlimDeque.increaseCapacityIfNecessary]⟩
  ⟨⟨hInv, by decide⟩, singleton_front_back ((mkSlimDeque ℕ 2 (3/2)).pushBack 5) hInv
    (by decide)⟩

end SlimDequeModel
